import Mathlib

set_option autoImplicit false
set_option maxHeartbeats 1000000

/-!
Shallow embedding of the reference-store transaction engine
(`git-ref/src/store/file/transaction.rs`) and of the directory-creation
iterator (`git-tempfile/src/create_dir.rs`), together with theorems about
their behaviour.

Byte strings are lists of naturals, filesystem and lock state are passed
explicitly, and environment oracles decide which filesystem operations
fail.  `todo!` and `assert!` outcomes of the source are represented as a
`panic` result carrying a message.  External collaborators that are not
part of the sources (the `transaction` data-model module, `git_lock`, the
reference decoder, `RefEditsExt`) are modelled from the specification and
marked as such on their doc comments.
-/

namespace RefStore

/-- Byte strings (`BString` and raw file contents). -/
abbrev Bytes := List Nat

/-- An object id, as its raw bytes (what `ObjectId::as_bytes` yields). -/
abbrev ObjectId := Bytes

/-- Modelled from the spec: the value a reference holds (`Target`), either
a direct object id or the name of another reference. -/
inductive Target where
  | Peeled : ObjectId → Target
  | Symbolic : Bytes → Target
deriving DecidableEq, Repr

/-- Modelled from the spec: the reflog write mode carried by `Update`.  The
transaction code only ever matches it with a wildcard, so it is opaque
here. -/
inductive ReflogMode where
  | normal : ReflogMode
deriving DecidableEq, Repr

/-- Modelled from the spec: the requested mutation for one name (`Change`).
An update carries the reflog mode, the optional expected or recorded
previous target, and the new target; a deletion carries the optional
expected previous target. -/
inductive Change where
  | Update : ReflogMode → Option Target → Target → Change
  | Delete : Option Target → Change
deriving DecidableEq, Repr

/-- Modelled from the spec: `RefEdit`, the unit of caller intent, pairing a
reference name with the requested change and the dereference flag. -/
structure RefEdit where
  name : Bytes
  edit : Change
  deref : Bool
deriving DecidableEq, Repr

/-- Modelled from the spec: a lock marker (`git_lock::Marker`) holding the
reserved path and the staged, closed content. -/
structure Marker where
  path : Bytes
  staged : Bytes
deriving DecidableEq, Repr

/-- An `Edit`: the caller's `RefEdit` plus its acquired lock and the index
of the edit that spawned it, if any. -/
structure Edit where
  update : RefEdit
  lock : Option Marker
  parent_index : Option Nat
deriving DecidableEq, Repr

/-- How lock-acquisition failure is handled (`git_lock::acquire::Fail`);
carried by the transaction but never inspected in this module. -/
inductive Fail where
  | immediately
  | afterDurationWithBackoff
deriving DecidableEq, Repr

/-- The file store (`file::Store`): its base directory. -/
structure Store where
  base : Bytes
deriving DecidableEq, Repr

/-- The state of a transaction (`State`). -/
inductive State where
  | Open
  | Prepared
deriving DecidableEq, Repr

/-- A transaction over a store (`Transaction`); the store is held by value
rather than by reference. -/
structure Transaction where
  store : Store
  updates : List Edit
  state : State
  lock_fail_mode : Fail
deriving DecidableEq, Repr

/-- The error taxonomy of the transaction module (`Error`); the payloads
wrapped from external error types are abstracted away. -/
inductive Error where
  | DuplicateRefEdits : Bytes → Error
  | lockAcquire : Error
  | ioError : Error
  | referenceDecode : Error
deriving DecidableEq, Repr

/-- Outcome of running a piece of code: a value, an error, or a panic
(from an `assert!` or `todo!`) carrying its message. -/
inductive Res (α : Type) where
  | ok : α → Res α
  | err : Error → Res α
  | panic : String → Res α
deriving DecidableEq, Repr

/-- The externally observable filesystem state: the on-disk reference
files (name to raw bytes) and the currently reserved lock paths. -/
structure FS where
  refs : List (Bytes × Bytes)
  heldLocks : List Bytes
deriving DecidableEq, Repr

/-- Environment oracles deciding which filesystem operations fail:
contention on lock acquisition, an I/O failure while staging or closing,
and an I/O failure while committing a lock. -/
structure Env where
  lockFail : Bytes → Bool
  writeFail : Bytes → Bool
  commitFail : Bytes → Bool

/-- Look a reference file up by name. -/
def lookupRef : List (Bytes × Bytes) → Bytes → Option Bytes
  | [], _ => none
  | (n, b) :: rest, name => if n = name then some b else lookupRef rest name

/-- Store or replace a reference file. -/
def setRef : List (Bytes × Bytes) → Bytes → Bytes → List (Bytes × Bytes)
  | [], name, b => [(name, b)]
  | (n, c) :: rest, name, b =>
    if n = name then (n, b) :: rest else (n, c) :: setRef rest name b

/-- Remove a reference file. -/
def removeRef : List (Bytes × Bytes) → Bytes → List (Bytes × Bytes)
  | [], _ => []
  | (n, c) :: rest, name => if n = name then rest else (n, c) :: removeRef rest name

/-- Release one reserved lock path (its first occurrence). -/
def removeLock : List Bytes → Bytes → List Bytes
  | [], _ => []
  | q :: rest, p => if q = p then rest else q :: removeLock rest p

/-- Release a reservation on the filesystem. -/
def FS.release (fs : FS) (p : Bytes) : FS :=
  { fs with heldLocks := removeLock fs.heldLocks p }

/-- The function `Store::ref_path`: the absolute location of a reference
file, the base directory joined with the relative path of the name. -/
def Store.ref_path (s : Store) (name : Bytes) : Bytes :=
  s.base ++ 47 :: name

/-- The literal bytes of the symbolic-reference marker, `ref: `. -/
def refHeader : Bytes := [114, 101, 102, 58, 32]

/-- Lowercase hex digit byte of a nibble. -/
def hexDigit (n : Nat) : Nat := if n < 10 then 48 + n else 87 + n

/-- Lowercase hexadecimal encoding of a byte string, two digits per byte. -/
def hexBytes : Bytes → Bytes
  | [] => []
  | b :: rest => hexDigit (b / 16) :: hexDigit (b % 16) :: hexBytes rest

/-- Value of one lowercase hex digit byte. -/
def hexVal (c : Nat) : Option Nat :=
  if 48 ≤ c ∧ c ≤ 57 then some (c - 48)
  else if 97 ≤ c ∧ c ≤ 102 then some (c - 87) else none

/-- Decode pairs of hex digit bytes back into bytes. -/
def unhex : Bytes → Option Bytes
  | [] => some []
  | [_] => none
  | hi :: lo :: rest =>
    match hexVal hi, hexVal lo, unhex rest with
    | some h, some l, some bs => some ((16 * h + l) :: bs)
    | _, _, _ => none

/-- Drop one trailing newline byte, if present. -/
def dropNl (b : Bytes) : Bytes :=
  if b.getLast? = some 10 then b.dropLast else b

/-- Modelled from the spec: decoding an on-disk reference file into a
`Target` (the function `file::Reference::try_from_path` is outside the
sources).  A line with the `ref: ` marker is a symbolic target, a hex line
is a peeled one, anything else is a decode error. -/
def decodeRef (b : Bytes) : Except Unit Target :=
  if b.take 5 = refHeader then .ok (.Symbolic (dropNl (b.drop 5)))
  else
    match unhex (dropNl b) with
    | some oid => .ok (.Peeled oid)
    | none => .error ()

/-- The decoded pre-transaction target of a reference: `none` when the
reference file does not exist or does not decode. -/
def diskTarget (refs : List (Bytes × Bytes)) (name : Bytes) : Option Target :=
  match lookupRef refs name with
  | none => none
  | some b => (decodeRef b).toOption

/-- The composition of `store.ref_contents` and the reference decoder used
by `lock_ref_and_apply_change`: the current on-disk target, `none` when
the file is absent, and a decode error when it cannot be parsed. -/
def readExistingRef (fs : FS) (name : Bytes) : Except Error (Option Target) :=
  match lookupRef fs.refs name with
  | none => .ok none
  | some b =>
    match decodeRef b with
    | .ok t => .ok (some t)
    | .error _ => .error .referenceDecode

/-- The bytes the source stages for a new target: the raw object id bytes
for a peeled target, and the `ref: ` marker followed by the name for a
symbolic one — with no line terminator in either case. -/
def stagedBytes : Target → Bytes
  | .Peeled oid => oid
  | .Symbolic name => refHeader ++ name

/-- The canonical on-disk reference-file text demanded by the
interoperability format: lowercase hex of the id, or the `ref: ` marker
followed by the name, each followed by a single newline. -/
def canonicalRefFileBytes : Target → Bytes
  | .Peeled oid => hexBytes oid ++ [10]
  | .Symbolic name => refHeader ++ name ++ [10]

/-- The assertion message guarding against double lock acquisition. -/
def lockOnceMsg : String := "locks can only be acquired once"

/-- The function `Transaction::lock_ref_and_apply_change`: read the
current value, acquire the lock (failing on contention or per the
environment), record the previous value, stage the new content and close
the lock.  The `todo!` branches of the source surface as panics, and a
lock dropped on an error path releases its reservation. -/
def lock_ref_and_apply_change (store : Store) (env : Env) (fs : FS) (change : Edit) :
    FS × Res Edit :=
  if change.lock.isSome then (fs, .panic lockOnceMsg)
  else
    match change.update.edit with
    | .Delete _ => (fs, .panic "handle deletions")
    | .Update mode previous new =>
      if store.ref_path change.update.name ∈ fs.heldLocks ∨
          env.lockFail (store.ref_path change.update.name) then (fs, .err .lockAcquire)
      else
        match previous with
        | some _ =>
          (FS.release
              { fs with heldLocks := store.ref_path change.update.name :: fs.heldLocks }
              (store.ref_path change.update.name),
            .panic "check previous value")
        | none =>
          match readExistingRef fs change.update.name with
          | .error e =>
            (FS.release
                { fs with heldLocks := store.ref_path change.update.name :: fs.heldLocks }
                (store.ref_path change.update.name),
              .err e)
          | .ok cur =>
            if env.writeFail (store.ref_path change.update.name) then
              (FS.release
                  { fs with heldLocks := store.ref_path change.update.name :: fs.heldLocks }
                  (store.ref_path change.update.name),
                .err .ioError)
            else
              ({ fs with heldLocks := store.ref_path change.update.name :: fs.heldLocks },
                .ok { change with
                  update := { change.update with edit := .Update mode cur new },
                  lock := some { path := store.ref_path change.update.name,
                                 staged := stagedBytes new } })

/-- Modelled from the spec: dropping an `Edit` releases its uncommitted
lock reservation and discards the staged content. -/
def releaseEdit (fs : FS) (e : Edit) : FS :=
  match e.lock with
  | none => fs
  | some m => fs.release m.path

/-- Dropping the transaction's edit vector, front to back. -/
def releaseEdits (fs : FS) (es : List Edit) : FS :=
  es.foldl releaseEdit fs

/-- Modelled from the spec: `RefEditsExt::assure_one_name_has_one_edit`
(outside the sources) reports the first reference name occurring more than
once, scanning in input order. -/
def firstDuplicate : List Bytes → Option Bytes
  | [] => none
  | n :: rest => if n ∈ rest then some n else firstDuplicate rest

/-- The loop body of `prepare`: lock and apply each edit in input order.
On an error or a panic the whole transaction is dropped, releasing every
lock acquired so far in the call. -/
def prepareLoop (store : Store) (env : Env) :
    FS → List Edit → List Edit → FS × Res (List Edit)
  | fs, acc, [] => (fs, .ok acc.reverse)
  | fs, acc, e :: rest =>
    match lock_ref_and_apply_change store env fs e with
    | (fs1, .ok e1) => prepareLoop store env fs1 (e1 :: acc) rest
    | (fs1, .err er) => (releaseEdits fs1 (acc.reverse ++ e :: rest), .err er)
    | (fs1, .panic m) => (releaseEdits fs1 (acc.reverse ++ e :: rest), .panic m)

/-- The function `Transaction::prepare`: a no-op on a prepared
transaction; otherwise reject duplicate names before touching the
filesystem, then lock and stage every edit, rolling every lock back on
failure. -/
def Transaction.prepare (env : Env) (fs : FS) (t : Transaction) :
    FS × Res Transaction :=
  match t.state with
  | .Prepared => (fs, .ok t)
  | .Open =>
    match firstDuplicate (t.updates.map (fun e => e.update.name)) with
    | some n => (fs, .err (.DuplicateRefEdits n))
    | none =>
      match prepareLoop t.store env fs [] t.updates with
      | (fs1, .ok l) => (fs1, .ok { t with updates := l, state := .Prepared })
      | (fs1, .err er) => (fs1, .err er)
      | (fs1, .panic m) => (fs1, .panic m)

/-- Observable commit steps, used for ordering statements. -/
inductive Event where
  | publish : Bytes → Event
  | removal : Bytes → Event
deriving DecidableEq, Repr

/-- The operation `Marker::commit`: atomically install the staged bytes at
the reference and release the reservation. -/
def commitMarker (fs : FS) (name : Bytes) (m : Marker) : FS :=
  { refs := setRef fs.refs name m.staged,
    heldLocks := removeLock fs.heldLocks m.path }

/-- First phase of `Transaction::commit`: publish every update.  The
reflog `todo!` for peeled targets surfaces as a panic, as in the source. -/
def commitLoop1 (env : Env) :
    FS → List Event → List Edit → List Edit → FS × List Event × Res (List Edit)
  | fs, tr, acc, [] => (fs, tr, .ok acc.reverse)
  | fs, tr, acc, e :: rest =>
    match e.update.edit with
    | .Delete _ => commitLoop1 env fs tr (e :: acc) rest
    | .Update _mode _prev new =>
      match e.lock with
      | none => (fs, tr, .panic "each ref is locked")
      | some lock =>
        match new with
        | .Peeled _ => (fs, tr, .panic "commit other reflog write cases")
        | .Symbolic _ =>
          if env.commitFail lock.path then (fs, tr, .err .ioError)
          else
            commitLoop1 env (commitMarker fs e.update.name lock)
              (tr ++ [.publish e.update.name]) ({ e with lock := none } :: acc) rest

/-- Second phase of `Transaction::commit`: deletions, whose body is a
`todo!` in the source. -/
def commitLoop2 :
    FS → List Event → List Edit → List Edit → FS × List Event × Res (List Edit)
  | fs, tr, acc, [] => (fs, tr, .ok acc.reverse)
  | fs, tr, acc, e :: rest =>
    match e.update.edit with
    | .Update _ _ _ => commitLoop2 fs tr (e :: acc) rest
    | .Delete _ => (fs, tr, .panic "commit deletion")

/-- The body of `Transaction::commit` on a prepared transaction: updates
first, then deletions, then return the performed edits. -/
def commitPrepared (env : Env) (fs : FS) (t : Transaction) :
    FS × List Event × Res (List RefEdit) :=
  match commitLoop1 env fs [] [] t.updates with
  | (fs1, tr1, .ok l1) =>
    match commitLoop2 fs1 tr1 [] l1 with
    | (fs2, tr2, .ok l2) => (fs2, tr2, .ok (l2.map (fun e => e.update)))
    | (fs2, tr2, .err er) => (fs2, tr2, .err er)
    | (fs2, tr2, .panic m) => (fs2, tr2, .panic m)
  | (fs1, tr1, .err er) => (fs1, tr1, .err er)
  | (fs1, tr1, .panic m) => (fs1, tr1, .panic m)

/-- The function `Transaction::commit`: prepare first when still open. -/
def Transaction.commit (env : Env) (fs : FS) (t : Transaction) :
    FS × List Event × Res (List RefEdit) :=
  match t.state with
  | .Prepared => commitPrepared env fs t
  | .Open =>
    match t.prepare env fs with
    | (fs1, .ok t1) => commitPrepared env fs1 t1
    | (fs1, .err er) => (fs1, [], .err er)
    | (fs1, .panic m) => (fs1, [], .panic m)

/-- The function `Transaction::into_edits`: discard the transaction and
re-obtain the initial edits. -/
def Transaction.into_edits (t : Transaction) : List RefEdit :=
  t.updates.map (fun e => e.update)

/-- The function `file::Store::transaction`: open a transaction over the
given edits with the given lock-failure mode. -/
def Store.transaction (s : Store) (edits : List RefEdit) (lock : Fail) : Transaction :=
  { store := s,
    updates := edits.map (fun u => { update := u, lock := none, parent_index := none }),
    state := .Open,
    lock_fail_mode := lock }

/-- Modelled from the spec: the first commit phase with the peeled-target
reflog branch (a `todo!` in the source) completed — the lock is published
for peeled and symbolic targets alike. -/
def commitLoop1M (env : Env) :
    FS → List Event → List Edit → List Edit → FS × List Event × Res (List Edit)
  | fs, tr, acc, [] => (fs, tr, .ok acc.reverse)
  | fs, tr, acc, e :: rest =>
    match e.update.edit with
    | .Delete _ => commitLoop1M env fs tr (e :: acc) rest
    | .Update _ _ _ =>
      match e.lock with
      | none => (fs, tr, .panic "each ref is locked")
      | some lock =>
        if env.commitFail lock.path then (fs, tr, .err .ioError)
        else
          commitLoop1M env (commitMarker fs e.update.name lock)
            (tr ++ [.publish e.update.name]) ({ e with lock := none } :: acc) rest

/-- Modelled from the spec: the second commit phase with the deletion
branch (a `todo!` in the source) completed — the reference file is
removed. -/
def commitLoop2M :
    FS → List Event → List Edit → List Edit → FS × List Event × Res (List Edit)
  | fs, tr, acc, [] => (fs, tr, .ok acc.reverse)
  | fs, tr, acc, e :: rest =>
    match e.update.edit with
    | .Update _ _ _ => commitLoop2M fs tr (e :: acc) rest
    | .Delete _ =>
      commitLoop2M { fs with refs := removeRef fs.refs e.update.name }
        (tr ++ [.removal e.update.name]) (e :: acc) rest

/-- Modelled from the spec: `commit` with the two `todo!` branches filled
in, keeping the source's two-loop structure (all updates, then all
deletions). -/
def commitPreparedM (env : Env) (fs : FS) (t : Transaction) :
    FS × List Event × Res (List RefEdit) :=
  match commitLoop1M env fs [] [] t.updates with
  | (fs1, tr1, .ok l1) =>
    match commitLoop2M fs1 tr1 [] l1 with
    | (fs2, tr2, .ok l2) => (fs2, tr2, .ok (l2.map (fun e => e.update)))
    | (fs2, tr2, .err er) => (fs2, tr2, .err er)
    | (fs2, tr2, .panic m) => (fs2, tr2, .panic m)
  | (fs1, tr1, .err er) => (fs1, tr1, .err er)
  | (fs1, tr1, .panic m) => (fs1, tr1, .panic m)

/-- Modelled from the spec: the commit entry point over the completed
loops, preparing first when the transaction is still open. -/
def Transaction.commitM (env : Env) (fs : FS) (t : Transaction) :
    FS × List Event × Res (List RefEdit) :=
  match t.state with
  | .Prepared => commitPreparedM env fs t
  | .Open =>
    match t.prepare env fs with
    | (fs1, .ok t1) => commitPreparedM env fs1 t1
    | (fs1, .err er) => (fs1, [], .err er)
    | (fs1, .panic m) => (fs1, [], .panic m)

/-- The edit produced by a successful `lock_ref_and_apply_change`, as a
pure function of the store, the reference files and the input edit. -/
def prepEdit (store : Store) (refs : List (Bytes × Bytes)) (e : Edit) : Edit :=
  match e.update.edit with
  | .Update mode none new =>
    { e with
      update := { e.update with edit := .Update mode (diskTarget refs e.update.name) new },
      lock := some { path := store.ref_path e.update.name, staged := stagedBytes new } }
  | _ => e

end RefStore

namespace CreateDir

/-- A path, as its list of segments; the parent drops the last one and a
single-segment path still has a (root) parent, while the empty path has
none. -/
abbrev DirPath := List String

/-- The operation `Path::parent` on segment lists. -/
def parent (p : DirPath) : Option DirPath :=
  match p with
  | [] => none
  | _ :: _ => some p.dropLast

/-- The `std::io::ErrorKind`s relevant to `create_dir`. -/
inductive IoKind where
  | alreadyExists
  | notFound
  | invalidInput
  | permissionDenied
deriving DecidableEq, Repr

/-- The outcome of one `std::fs::create_dir` call, supplied by the
environment. -/
inductive DirOutcome where
  | success
  | failure : IoKind → DirOutcome

/-- The filesystem oracle for directory creation. -/
structure DirEnv where
  create_dir : DirPath → DirOutcome

/-- The error type `create_dir::Error`. -/
inductive DirError where
  | Intermediate : IoKind → DirError
  | Permanent : IoKind → DirPath → DirError
deriving DecidableEq, Repr

/-- One step of the iterator: a yielded directory, a yielded error, the
end of iteration, or a panic out of the unimplemented error-kind branch. -/
inductive NextRes where
  | done
  | yieldOk : DirPath → NextRes
  | yieldErr : DirError → NextRes
  | panicked : String → NextRes
deriving DecidableEq, Repr

/-- The iterator `Iter`: its stack of cursors. -/
structure Iter where
  cursors : List DirPath
deriving DecidableEq, Repr

/-- The function `Iter::new`. -/
def Iter.new (target : DirPath) : Iter := ⟨[target]⟩

/-- The function `Iter::fail_permanently`: clear every cursor and yield a
permanent error carrying the offending directory. -/
def fail_permanently (dir : DirPath) (kind : IoKind) : Iter × NextRes :=
  (⟨[]⟩, .yieldErr (.Permanent kind dir))

/-- The function `Iter::next`: pop a cursor and try to create it, treating
an existing directory as success, retrying through the parent when it is
missing, and hitting the `todo!` branch (a panic) on any other error
kind. -/
def Iter.next (env : DirEnv) (it : Iter) : Iter × NextRes :=
  match it.cursors with
  | [] => (it, .done)
  | cursor :: rest =>
    match env.create_dir cursor with
    | .success => (⟨rest⟩, .yieldOk cursor)
    | .failure .alreadyExists => (⟨rest⟩, .yieldOk cursor)
    | .failure .notFound =>
      match parent cursor with
      | none => fail_permanently cursor .invalidInput
      | some par => (⟨par :: cursor :: rest⟩, .yieldErr (.Intermediate .notFound))
    | .failure _ => (it, .panicked "unhandled create_dir error kind")

end CreateDir

namespace RefStore

/-! Concrete sample data used by the witness theorems. -/

/-- A one-byte base directory. -/
def b0 : Bytes := [98]

/-- A sample reference name. -/
def n0 : Bytes := [110]

/-- A second sample reference name. -/
def n1 : Bytes := [109]

/-- A third sample reference name. -/
def n2 : Bytes := [107]

/-- A sample store. -/
def s0 : Store := ⟨b0⟩

/-- An environment in which no filesystem operation fails. -/
def env0 : Env := ⟨fun _ => false, fun _ => false, fun _ => false⟩

/-- An empty filesystem. -/
def fs0 : FS := ⟨[], []⟩

/-- A one-byte sample object id, `0xab`. -/
def oidW : Bytes := [171]

/-- An environment in which only the lock for `n1` cannot be acquired. -/
def envL2 : Env :=
  ⟨fun p => decide (p = Store.ref_path s0 n1), fun _ => false, fun _ => false⟩

/-- A sample symbolic-target update of `n0`. -/
def updSym0 : RefEdit := ⟨n0, .Update .normal none (.Symbolic n1), false⟩

/-- A sample symbolic-target update of `n1`. -/
def updSym1 : RefEdit := ⟨n1, .Update .normal none (.Symbolic n2), false⟩

/-- A sample deletion of `n2`. -/
def delEdit0 : RefEdit := ⟨n2, .Delete none, false⟩

/-- An empty transaction already in the prepared state. -/
def tPrep0 : Transaction := ⟨s0, [], .Prepared, .immediately⟩

/-- A prepared transaction holding one deletion (listed first) and one
locked symbolic update. -/
def tW : Transaction :=
  ⟨s0, [⟨delEdit0, none, none⟩,
        ⟨updSym0, some ⟨Store.ref_path s0 n0, refHeader ++ n1⟩, none⟩],
   .Prepared, .immediately⟩

/-- A filesystem matching `tW`: the deleted reference exists and the
update's lock path is reserved. -/
def fsW : FS := ⟨[(n2, [97, 98, 10])], [Store.ref_path s0 n0]⟩

/-- A filesystem on which `n0` exists as a symbolic reference to `n2`. -/
def fs4 : FS := ⟨[(n0, refHeader ++ n2 ++ [10])], []⟩

/-- The result of preparing a single symbolic update on the empty store. -/
def prep8 : FS × Res Transaction :=
  Transaction.prepare env0 fs0 (s0.transaction [updSym0] .immediately)

/-- The prepared transaction inside `prep8`. -/
def t1c : Transaction :=
  match prep8.2 with
  | .ok t => t
  | _ => s0.transaction [updSym0] .immediately

/-- Two edits naming the same reference. -/
def edits3 : List RefEdit := [updSym0, ⟨n0, .Delete none, false⟩]

/-- Two updates of distinct names; under `envL2` the second lock fails. -/
def edits1 : List RefEdit := [⟨n0, .Update .normal none (.Symbolic n2), false⟩, updSym1]

/-- The edits returned by committing `[updSym0]` over `fs4`. -/
def res4 : List RefEdit := [⟨n0, .Update .normal (some (.Symbolic n2)) (.Symbolic n1), false⟩]

end RefStore

/-! Theorems. -/

namespace RefStore

/-- C10: constructing a transaction via `Store::transaction` and
immediately calling `into_edits` returns exactly the input edits, in
order, unmodified, for every edit list and lock-failure mode. -/
theorem into_edits_roundtrip (s : Store) (edits : List RefEdit) (mode : Fail) :
    (s.transaction edits mode).into_edits = edits := by
  induction edits with
  | nil => rfl
  | cons u us ih =>
    simpa [Store.transaction, Transaction.into_edits] using
      congrArg (fun l => u :: l) (by simpa [Store.transaction, Transaction.into_edits] using ih)

/-- C5: calling `prepare` on a transaction already in the `Prepared` state
succeeds and returns the same transaction with the filesystem untouched —
no lock is re-acquired and no filesystem operation is performed. -/
theorem prepare_idempotent_on_prepared (env : Env) (fs : FS) (t : Transaction)
    (h : t.state = .Prepared) : t.prepare env fs = (fs, .ok t) := by
  unfold Transaction.prepare
  rw [h]

/-- Witness for C5 at a concrete prepared transaction. -/
theorem prepare_idempotent_on_prepared_witness :
    Transaction.prepare env0 fs0 tPrep0 = (fs0, .ok tPrep0) :=
  prepare_idempotent_on_prepared env0 fs0 tPrep0 rfl

/-- C2, divergence of the code from the claim: preparing an update with a
peeled target stages the raw object-id bytes (here `0xab`) with no
newline, not the lowercase-hex-plus-newline canonical text, and a staged
symbolic target lacks the trailing newline. -/
theorem staged_bytes_not_canonical :
    (Transaction.prepare env0 fs0
        (s0.transaction [⟨n0, .Update .normal none (.Peeled oidW), false⟩] .immediately)).2 =
      .ok ⟨s0, [⟨⟨n0, .Update .normal none (.Peeled oidW), false⟩,
        some ⟨Store.ref_path s0 n0, stagedBytes (.Peeled oidW)⟩, none⟩],
        .Prepared, .immediately⟩ ∧
    stagedBytes (.Peeled oidW) = oidW ∧
    canonicalRefFileBytes (.Peeled oidW) = [97, 98, 10] ∧
    stagedBytes (.Peeled oidW) ≠ canonicalRefFileBytes (.Peeled oidW) ∧
    stagedBytes (.Symbolic n1) ≠ canonicalRefFileBytes (.Symbolic n1) := by
  decide

/-- C7, divergence of the code from the claim: preparing an update whose
`previous` is `Some` reaches the `todo!` branch (a panic) instead of
verifying the expected value; no precondition-mismatch error variant even
exists. -/
theorem previous_check_todo :
    (Transaction.prepare env0 fs0
        (s0.transaction [⟨n0, .Update .normal (some (.Peeled oidW)) (.Peeled oidW), false⟩]
          .immediately)).2 =
      .panic "check previous value" := by
  decide

end RefStore

namespace CreateDir

/-- C9, divergence of the code from the claim: an already-existing
directory is treated as success and a missing parent yields a transient
failure with the parent pushed, but an error kind other than those (here
permission denied) hits the `todo!` branch and panics instead of yielding
one permanent failure; the only permanent failure the code can yield is
the no-parent case, after which iteration stops. -/
theorem create_dir_other_kind_panics :
    (Iter.next ⟨fun _ => .failure .permissionDenied⟩ (Iter.new ["a"])).2 =
      .panicked "unhandled create_dir error kind" ∧
    Iter.next ⟨fun _ => .failure .alreadyExists⟩ (Iter.new ["a"]) = (⟨[]⟩, .yieldOk ["a"]) ∧
    Iter.next ⟨fun _ => .failure .notFound⟩ (Iter.new ["a", "b"]) =
      (⟨[["a"], ["a", "b"]]⟩, .yieldErr (.Intermediate .notFound)) ∧
    Iter.next ⟨fun _ => .failure .notFound⟩ (Iter.new []) =
      (⟨[]⟩, .yieldErr (.Permanent .invalidInput [])) ∧
    (Iter.next ⟨fun _ => .failure .notFound⟩ ⟨[]⟩).2 = .done := by
  decide

end CreateDir

namespace RefStore

/-- The duplicate scan reports nothing exactly on duplicate-free name lists. -/
theorem firstDuplicate_eq_none_iff (l : List Bytes) : firstDuplicate l = none ↔ l.Nodup := by
  induction l with
  | nil => simp [firstDuplicate]
  | cons n rest ih =>
    by_cases h : n ∈ rest
    · simp [firstDuplicate, h]
    · simp [firstDuplicate, h, ih]

/-- C3: a batch containing two edits with the same reference name makes
`prepare` (and `commit`, which auto-prepares) fail with a duplicate-edit
error identifying the first duplicated name, with the filesystem
untouched — no path is resolved, locked or written. -/
theorem duplicate_edits_rejected (s : Store) (env : Env) (fs : FS) (edits : List RefEdit)
    (mode : Fail) (i j : Nat) (hi : i < edits.length) (hj : j < edits.length) (hne : i ≠ j)
    (hsame : (edits.get ⟨i, hi⟩).name = (edits.get ⟨j, hj⟩).name) :
    ∃ n, firstDuplicate (edits.map (fun u => u.name)) = some n ∧
      Transaction.prepare env fs (s.transaction edits mode) = (fs, .err (.DuplicateRefEdits n)) ∧
      Transaction.commit env fs (s.transaction edits mode) = (fs, [], .err (.DuplicateRefEdits n)) := by
  have hnd : ¬ (edits.map (fun u => u.name)).Nodup := by
    intro hnd
    have hinj := List.nodup_iff_injective_get.mp hnd
    have hlen : (edits.map (fun u => u.name)).length = edits.length := List.length_map _ _
    have h1 : (edits.map (fun u => u.name)).get ⟨i, by omega⟩ =
        (edits.map (fun u => u.name)).get ⟨j, by omega⟩ := by
      simp only [List.get_eq_getElem, List.getElem_map]
      exact hsame
    have := hinj h1
    exact hne (by simpa using congrArg Fin.val this)
  rcases hfd : firstDuplicate (edits.map (fun u => u.name)) with _ | n
  · exact absurd ((firstDuplicate_eq_none_iff _).mp hfd) hnd
  · have hmap : (s.transaction edits mode).updates.map (fun e => e.update.name) =
        edits.map (fun u => u.name) := by
      simp [Store.transaction, List.map_map, Function.comp]
    have hp : Transaction.prepare env fs (s.transaction edits mode) =
        (fs, .err (.DuplicateRefEdits n)) := by
      unfold Transaction.prepare
      rw [show (s.transaction edits mode).state = State.Open from rfl, hmap, hfd]
    refine ⟨n, hfd, hp, ?_⟩
    unfold Transaction.commit
    rw [show (s.transaction edits mode).state = State.Open from rfl, hp]

/-- Witness for C3 at a concrete duplicated batch. -/
theorem duplicate_edits_rejected_witness :
    ∃ n, firstDuplicate (edits3.map (fun u => u.name)) = some n ∧
      Transaction.prepare env0 fs0 (s0.transaction edits3 .immediately) =
        (fs0, .err (.DuplicateRefEdits n)) ∧
      Transaction.commit env0 fs0 (s0.transaction edits3 .immediately) =
        (fs0, [], .err (.DuplicateRefEdits n)) :=
  duplicate_edits_rejected s0 env0 fs0 edits3 .immediately 0 1 (by decide) (by decide)
    (by decide) rfl

end RefStore

namespace RefStore

/-- Releasing the path just reserved restores the reservation list. -/
theorem removeLock_cons_self (p : Bytes) (l : List Bytes) : removeLock (p :: l) p = l := by
  simp [removeLock]

/-- Releasing a different path keeps the head reservation. -/
theorem removeLock_cons_ne {q p : Bytes} (l : List Bytes) (h : q ≠ p) :
    removeLock (q :: l) p = q :: removeLock l p := by
  simp [removeLock, h]

/-- Releasing right after reserving is the identity on the filesystem. -/
theorem release_cons_self (fs : FS) (p : Bytes) :
    FS.release { fs with heldLocks := p :: fs.heldLocks } p = fs := by
  simp [FS.release, removeLock]

/-- Dropping an edit never touches the reference files. -/
theorem releaseEdit_refs (fs : FS) (e : Edit) : (releaseEdit fs e).refs = fs.refs := by
  cases h : e.lock <;> simp [releaseEdit, h, FS.release]

/-- Dropping a concatenation drops the two parts in order. -/
theorem releaseEdits_append (fs : FS) (l1 l2 : List Edit) :
    releaseEdits fs (l1 ++ l2) = releaseEdits (releaseEdits fs l1) l2 := by
  simp [releaseEdits, List.foldl_append]

/-- Dropping edits that hold no lock changes nothing. -/
theorem releaseEdits_nolock (fs : FS) (l : List Edit) (h : ∀ e ∈ l, e.lock = none) :
    releaseEdits fs l = fs := by
  induction l generalizing fs with
  | nil => rfl
  | cons e rest ih =>
    have he : e.lock = none := h e (by simp)
    have : releaseEdit fs e = fs := by simp [releaseEdit, he]
    simp only [releaseEdits, List.foldl_cons, this]
    exact ih fs (fun x hx => h x (by simp [hx]))

/-- Dropping edits whose markers do not name the freshly reserved path
commutes with that reservation. -/
theorem releaseEdits_cons_lock (fs : FS) (p : Bytes) (l : List Edit)
    (h : ∀ e ∈ l, ∀ m, e.lock = some m → m.path ≠ p) :
    releaseEdits { fs with heldLocks := p :: fs.heldLocks } l =
      { releaseEdits fs l with heldLocks := p :: (releaseEdits fs l).heldLocks } := by
  induction l generalizing fs with
  | nil => rfl
  | cons e rest ih =>
    cases hm : e.lock with
    | none =>
      have h1 : releaseEdit { fs with heldLocks := p :: fs.heldLocks } e =
          { fs with heldLocks := p :: fs.heldLocks } := by simp [releaseEdit, hm]
      have h2 : releaseEdit fs e = fs := by simp [releaseEdit, hm]
      simp only [releaseEdits, List.foldl_cons, h1, h2]
      exact ih fs (fun x hx => h x (by simp [hx]))
    | some m =>
      have hne : m.path ≠ p := h e (by simp) m hm
      have h1 : releaseEdit { fs with heldLocks := p :: fs.heldLocks } e =
          { releaseEdit fs e with heldLocks := p :: (releaseEdit fs e).heldLocks } := by
        simp [releaseEdit, hm, FS.release, removeLock_cons_ne _ (Ne.symm hne)]
      simp only [releaseEdits, List.foldl_cons, h1]
      exact ih (releaseEdit fs e) (fun x hx => h x (by simp [hx]))

/-- An error from `lock_ref_and_apply_change` leaves the filesystem
exactly as it was: the lock acquired inside the call, if any, was
released again. -/
theorem lock_ref_err (store : Store) (env : Env) (fs : FS) (e : Edit) (fs1 : FS) (er : Error)
    (h : lock_ref_and_apply_change store env fs e = (fs1, .err er)) : fs1 = fs := by
  unfold lock_ref_and_apply_change at h
  split at h
  · simp at h
  · split at h
    · simp at h
    · split at h
      · injection h with h1 h2
        exact h1.symm
      · split at h
        · simp at h
        · split at h
          · injection h with h1 h2
            rw [← h1, release_cons_self]
          · split at h
            · injection h with h1 h2
              rw [← h1, release_cons_self]
            · simp at h

/-- A panic from `lock_ref_and_apply_change` also leaves the filesystem unchanged. -/
theorem lock_ref_panic (store : Store) (env : Env) (fs : FS) (e : Edit) (fs1 : FS) (m : String)
    (h : lock_ref_and_apply_change store env fs e = (fs1, .panic m)) : fs1 = fs := by
  unfold lock_ref_and_apply_change at h
  split at h
  · injection h with h1 h2
    exact h1.symm
  · split at h
    · injection h with h1 h2
      exact h1.symm
    · split at h
      · simp at h
      · split at h
        · injection h with h1 h2
          rw [← h1, release_cons_self]
        · split at h
          · simp at h
          · split at h
            · simp at h
            · simp at h

end RefStore

namespace RefStore

/-- A successful read of the existing reference yields exactly the
decoded on-disk target. -/
theorem readExistingRef_ok_diskTarget (fs : FS) (name : Bytes) (cur : Option Target)
    (h : readExistingRef fs name = .ok cur) : diskTarget fs.refs name = cur := by
  unfold readExistingRef at h
  cases hlk : lookupRef fs.refs name with
  | none =>
    rw [hlk] at h
    injection h with h1
    simp [diskTarget, hlk, ← h1]
  | some b =>
    rw [hlk] at h
    have h2 : (match decodeRef b with
        | Except.ok t => (Except.ok (some t) : Except Error (Option Target))
        | Except.error _ => Except.error Error.referenceDecode) = Except.ok cur := h
    cases hdec : decodeRef b with
    | ok t =>
      rw [hdec] at h2
      injection h2 with h1
      simp [diskTarget, hlk, hdec, ← h1, Except.toOption]
    | error u =>
      rw [hdec] at h2
      simp at h2

/-- Characterization of a successful `lock_ref_and_apply_change`: the
input edit held no lock, the reference path was free and is now reserved,
and the output edit is the pure `prepEdit` transform carrying the new
marker. -/
theorem lock_ref_ok (store : Store) (env : Env) (fs : FS) (e : Edit) (fs1 : FS) (e1 : Edit)
    (h : lock_ref_and_apply_change store env fs e = (fs1, .ok e1)) :
    e.lock = none ∧
    store.ref_path e.update.name ∉ fs.heldLocks ∧
    fs1 = { fs with heldLocks := store.ref_path e.update.name :: fs.heldLocks } ∧
    e1 = prepEdit store fs.refs e ∧
    ∃ stg, e1.lock = some { path := store.ref_path e.update.name, staged := stg } := by
  unfold lock_ref_and_apply_change at h
  split at h
  · simp at h
  next hl =>
  have hnone : e.lock = none := Option.not_isSome_iff_eq_none.mp hl
  split at h
  · simp at h
  next mode previous new hedit =>
  split at h
  · simp at h
  next hcond =>
  have hmem : store.ref_path e.update.name ∉ fs.heldLocks := by
    intro hmem
    exact hcond (Or.inl hmem)
  split at h
  · simp at h
  · split at h
    · simp at h
    next cur hread =>
    split at h
    · simp at h
    · injection h with h1 h2
      injection h2 with h3
      refine ⟨hnone, hmem, h1.symm, ?_, ?_⟩
      · rw [← h3]
        have hdt : diskTarget fs.refs e.update.name = cur :=
          readExistingRef_ok_diskTarget fs e.update.name cur hread
        simp [prepEdit, hedit, hdt]
      · exact ⟨stagedBytes new, by rw [← h3]⟩

end RefStore

namespace RefStore

/-- If the prepare loop fails, the filesystem it returns is the initial
one: every lock acquired by earlier iterations has been released by
dropping the transaction. -/
theorem prepareLoop_err (store : Store) (env : Env) (fsInit : FS) :
    ∀ (es : List Edit) (fs : FS) (acc : List Edit),
      (∀ e ∈ es, e.lock = none) →
      releaseEdits fs acc.reverse = fsInit →
      (∀ e ∈ acc, ∀ m, e.lock = some m → m.path ∈ fs.heldLocks) →
      ∀ fs1 er, prepareLoop store env fs acc es = (fs1, .err er) → fs1 = fsInit := by
  intro es
  induction es with
  | nil =>
    intro fs acc hnone hrel hmem fs1 er h
    have h' : (fs, Res.ok acc.reverse) = (fs1, Res.err er) := h
    simp at h'
  | cons e rest ih =>
    intro fs acc hnone hrel hmem fs1 er h
    unfold prepareLoop at h
    cases hstep : lock_ref_and_apply_change store env fs e with
    | mk fsx r =>
      cases r with
      | ok e1 =>
        rw [hstep] at h
        obtain ⟨hlnone, hnotmem, hfsx, hpe, stg, hlock⟩ :=
          lock_ref_ok store env fs e fsx e1 hstep
        have hrel' : releaseEdits fsx (e1 :: acc).reverse = fsInit := by
          rw [List.reverse_cons, releaseEdits_append, hfsx]
          rw [releaseEdits_cons_lock fs (store.ref_path e.update.name) acc.reverse
            (fun x hx m hm => by
              intro hp
              exact hnotmem (hp ▸ hmem x (List.mem_reverse.mp hx) m hm))]
          rw [hrel]
          show releaseEdit { fsInit with heldLocks := store.ref_path e.update.name :: fsInit.heldLocks } e1 = fsInit
          rw [releaseEdit, hlock]
          exact release_cons_self fsInit (store.ref_path e.update.name)
        have hmem' : ∀ x ∈ e1 :: acc, ∀ m, x.lock = some m → m.path ∈ fsx.heldLocks := by
          intro x hx m hm
          rw [hfsx]
          rcases List.mem_cons.mp hx with hx1 | hx2
          · subst hx1
            rw [hlock] at hm
            injection hm with hm1
            rw [← hm1]
            exact List.mem_cons_self _ _
          · exact List.mem_cons_of_mem _ (hmem x hx2 m hm)
        exact ih fsx (e1 :: acc) (fun x hx => hnone x (List.mem_cons_of_mem _ hx)) hrel' hmem' fs1 er h
      | err er2 =>
        rw [hstep] at h
        have h' : (releaseEdits fsx (acc.reverse ++ e :: rest), Res.err er2) =
            (fs1, Res.err er) := h
        injection h' with h1 h2
        have hfsx : fsx = fs := lock_ref_err store env fs e fsx er2 hstep
        rw [← h1, hfsx, releaseEdits_append, hrel]
        exact releaseEdits_nolock fsInit (e :: rest) hnone
      | panic m =>
        rw [hstep] at h
        have h' : (releaseEdits fsx (acc.reverse ++ e :: rest), Res.panic m) =
            (fs1, Res.err er) := h
        simp at h'

/-- C1: if `prepare` on a freshly opened transaction returns an error of
any kind, the filesystem — reference files and held lock reservations —
is returned exactly as it was before the call: every lock acquired
earlier in the call has been released and no partial set of locks
survives. -/
theorem prepare_error_rolls_back (s : Store) (env : Env) (fs : FS) (edits : List RefEdit)
    (mode : Fail) (fs1 : FS) (er : Error)
    (h : Transaction.prepare env fs (s.transaction edits mode) = (fs1, .err er)) :
    fs1 = fs := by
  unfold Transaction.prepare at h
  rw [show (s.transaction edits mode).state = State.Open from rfl] at h
  cases hfd : firstDuplicate ((s.transaction edits mode).updates.map (fun e => e.update.name)) with
  | some n =>
    rw [hfd] at h
    have h' : (fs, Res.err (Error.DuplicateRefEdits n)) = (fs1, Res.err er) := h
    injection h' with h1 h2
    exact h1.symm
  | none =>
    rw [hfd] at h
    cases hloop : prepareLoop (s.transaction edits mode).store env fs []
        (s.transaction edits mode).updates with
    | mk fsx r =>
      cases r with
      | ok l =>
        rw [hloop] at h
        simp at h
      | err er2 =>
        rw [hloop] at h
        have h' : (fsx, Res.err er2) = (fs1, Res.err er) := h
        injection h' with h1 h2
        rw [← h1]
        exact prepareLoop_err (s.transaction edits mode).store env fs
          (s.transaction edits mode).updates fs []
          (fun e he => by
            simp only [Store.transaction, List.mem_map] at he
            obtain ⟨u, _, hu⟩ := he
            rw [← hu])
          rfl
          (fun e he => absurd he (List.not_mem_nil e))
          fsx er2 hloop
      | panic m =>
        rw [hloop] at h
        simp at h

/-- Witness for C1: with two updates whose second lock acquisition fails,
`prepare` returns the original (empty) filesystem — the first lock was
rolled back. -/
theorem prepare_error_rolls_back_witness :
    (Transaction.prepare envL2 fs0 (s0.transaction edits1 .immediately)).1 = fs0 :=
  prepare_error_rolls_back s0 envL2 fs0 edits1 .immediately
    (Transaction.prepare envL2 fs0 (s0.transaction edits1 .immediately)).1 .lockAcquire
    (by decide)

end RefStore

namespace RefStore

/-- Characterization of a successful prepare loop: the reference files are
untouched and the resulting edits are the pointwise `prepEdit` transform
of the inputs, appended to the accumulator. -/
theorem prepareLoop_ok_map (store : Store) (env : Env) :
    ∀ (es : List Edit) (fs : FS) (acc : List Edit) (fs1 : FS) (l : List Edit),
      prepareLoop store env fs acc es = (fs1, .ok l) →
      fs1.refs = fs.refs ∧ l = acc.reverse ++ es.map (prepEdit store fs.refs) := by
  intro es
  induction es with
  | nil =>
    intro fs acc fs1 l h
    have h' : (fs, Res.ok acc.reverse) = (fs1, Res.ok l) := h
    injection h' with h1 h2
    injection h2 with h3
    subst h1
    subst h3
    simp
  | cons e rest ih =>
    intro fs acc fs1 l h
    unfold prepareLoop at h
    cases hstep : lock_ref_and_apply_change store env fs e with
    | mk fsx r =>
      cases r with
      | ok e1 =>
        rw [hstep] at h
        obtain ⟨_, _, hfsx, hpe, _, _⟩ := lock_ref_ok store env fs e fsx e1 hstep
        obtain ⟨hrefs, hl⟩ := ih fsx (e1 :: acc) fs1 l h
        have hrefs2 : fsx.refs = fs.refs := by rw [hfsx]
        refine ⟨by rw [hrefs, hrefs2], ?_⟩
        rw [hl, hrefs2, List.reverse_cons, List.append_assoc]
        simp [hpe]
      | err er2 =>
        rw [hstep] at h
        have h' : (releaseEdits fsx (acc.reverse ++ e :: rest), Res.err er2) =
            (fs1, Res.ok l) := h
        simp at h'
      | panic m =>
        rw [hstep] at h
        have h' : (releaseEdits fsx (acc.reverse ++ e :: rest), Res.panic m) =
            (fs1, Res.ok l) := h
        simp at h'

/-- Characterization of a successful `prepare` on a fresh transaction:
the result is in the `Prepared` state and its edits are the pointwise
`prepEdit` transform of the caller's edits. -/
theorem prepare_ok_char (s : Store) (env : Env) (fs : FS) (edits : List RefEdit) (mode : Fail)
    (fs1 : FS) (t1 : Transaction)
    (h : Transaction.prepare env fs (s.transaction edits mode) = (fs1, .ok t1)) :
    t1.state = .Prepared ∧
    t1.updates = edits.map (fun u => prepEdit s fs.refs ⟨u, none, none⟩) := by
  unfold Transaction.prepare at h
  rw [show (s.transaction edits mode).state = State.Open from rfl] at h
  cases hfd : firstDuplicate ((s.transaction edits mode).updates.map (fun e => e.update.name)) with
  | some n =>
    rw [hfd] at h
    have h' : (fs, Res.err (Error.DuplicateRefEdits n)) = (fs1, Res.ok t1) := h
    simp at h'
  | none =>
    rw [hfd] at h
    cases hloop : prepareLoop (s.transaction edits mode).store env fs []
        (s.transaction edits mode).updates with
    | mk fsx r =>
      cases r with
      | ok l =>
        rw [hloop] at h
        have h' : (fsx, Res.ok { s.transaction edits mode with updates := l, state := .Prepared }) =
            (fs1, Res.ok t1) := h
        injection h' with h1 h2
        injection h2 with h3
        obtain ⟨hrefs, hl⟩ := prepareLoop_ok_map (s.transaction edits mode).store env
          (s.transaction edits mode).updates fs [] fsx l hloop
        constructor
        · rw [← h3]
        · rw [← h3]
          show l = edits.map (fun u => prepEdit s fs.refs ⟨u, none, none⟩)
          rw [hl]
          simp only [Store.transaction, List.map_map, List.nil_append]
          rfl
      | err er2 =>
        rw [hloop] at h
        have h' : (fsx, Res.err er2) = (fs1, Res.ok t1) := h
        simp at h'
      | panic m =>
        rw [hloop] at h
        have h' : (fsx, Res.panic m) = (fs1, Res.ok t1) := h
        simp at h'

/-- The first commit phase preserves each edit's `RefEdit` payload. -/
theorem commitLoop1_ok_map (env : Env) :
    ∀ (es : List Edit) (fs : FS) (tr : List Event) (acc : List Edit) (fs1 : FS)
      (tr1 : List Event) (l : List Edit),
      commitLoop1 env fs tr acc es = (fs1, tr1, .ok l) →
      l.map (fun e => e.update) =
        acc.reverse.map (fun e => e.update) ++ es.map (fun e => e.update) := by
  intro es
  induction es with
  | nil =>
    intro fs tr acc fs1 tr1 l h
    have h' : (fs, tr, Res.ok acc.reverse) = (fs1, tr1, Res.ok l) := h
    injection h' with h1 h2
    injection h2 with h3 h4
    injection h4 with h5
    subst h5
    simp
  | cons e rest ih =>
    intro fs tr acc fs1 tr1 l h
    unfold commitLoop1 at h
    cases hedit : e.update.edit with
    | Delete prev =>
      rw [hedit] at h
      have := ih fs tr (e :: acc) fs1 tr1 l h
      rw [this]
      simp
    | Update mode prev new =>
      rw [hedit] at h
      cases hlock : e.lock with
      | none =>
        rw [hlock] at h
        have h' : (fs, tr, Res.panic "each ref is locked") = (fs1, tr1, Res.ok l) := h
        simp at h'
      | some lock =>
        rw [hlock] at h
        cases new with
        | Peeled oid =>
          have h' : (fs, tr, Res.panic "commit other reflog write cases") =
              (fs1, tr1, Res.ok l) := h
          simp at h'
        | Symbolic nm =>
          have hif : (if env.commitFail lock.path = true then (fs, tr, Res.err Error.ioError)
              else commitLoop1 env (commitMarker fs e.update.name lock)
                (tr ++ [Event.publish e.update.name])
                ({ e with lock := none } :: acc) rest) = (fs1, tr1, Res.ok l) := h
          by_cases hcf : env.commitFail lock.path = true
          · rw [if_pos hcf] at hif
            simp at hif
          · rw [if_neg hcf] at hif
            have := ih (commitMarker fs e.update.name lock) (tr ++ [.publish e.update.name])
              ({ e with lock := none } :: acc) fs1 tr1 l hif
            rw [this]
            simp

/-- The second commit phase preserves each edit's `RefEdit` payload. -/
theorem commitLoop2_ok_map :
    ∀ (es : List Edit) (fs : FS) (tr : List Event) (acc : List Edit) (fs1 : FS)
      (tr1 : List Event) (l : List Edit),
      commitLoop2 fs tr acc es = (fs1, tr1, .ok l) →
      l.map (fun e => e.update) =
        acc.reverse.map (fun e => e.update) ++ es.map (fun e => e.update) := by
  intro es
  induction es with
  | nil =>
    intro fs tr acc fs1 tr1 l h
    have h' : (fs, tr, Res.ok acc.reverse) = (fs1, tr1, Res.ok l) := h
    injection h' with h1 h2
    injection h2 with h3 h4
    injection h4 with h5
    subst h5
    simp
  | cons e rest ih =>
    intro fs tr acc fs1 tr1 l h
    unfold commitLoop2 at h
    cases hedit : e.update.edit with
    | Update mode prev new =>
      rw [hedit] at h
      have := ih fs tr (e :: acc) fs1 tr1 l h
      rw [this]
      simp
    | Delete prev =>
      rw [hedit] at h
      have h' : (fs, tr, Res.panic "commit deletion") = (fs1, tr1, Res.ok l) := h
      simp at h'

/-- A successful commit returns exactly the prepared edits' payloads. -/
theorem commitPrepared_ok (env : Env) (fs : FS) (t : Transaction) (fs2 : FS)
    (tr2 : List Event) (res : List RefEdit)
    (h : commitPrepared env fs t = (fs2, tr2, .ok res)) :
    res = t.updates.map (fun e => e.update) := by
  unfold commitPrepared at h
  cases h1 : commitLoop1 env fs [] [] t.updates with
  | mk fsa pa =>
    cases pa with
    | mk tra ra =>
      cases ra with
      | ok l1 =>
        rw [h1] at h
        have hA : (match commitLoop2 fsa tra [] l1 with
            | (fsx, trx, Res.ok l2) => (fsx, trx, Res.ok (l2.map (fun e => e.update)))
            | (fsx, trx, Res.err er) => (fsx, trx, Res.err er)
            | (fsx, trx, Res.panic m) => (fsx, trx, Res.panic m)) =
            (fs2, tr2, Res.ok res) := h
        cases h2 : commitLoop2 fsa tra [] l1 with
        | mk fsb pb =>
          cases pb with
          | mk trb rb =>
            cases rb with
            | ok l2 =>
              rw [h2] at hA
              have h' : (fsb, trb, Res.ok (l2.map (fun e => e.update))) =
                  (fs2, tr2, Res.ok res) := hA
              injection h' with ha hb
              injection hb with hc hd
              injection hd with he
              have hm2 := commitLoop2_ok_map l1 fsa tra [] fsb trb l2 h2
              have hm1 := commitLoop1_ok_map env t.updates fs [] [] fsa tra l1 h1
              rw [← he, hm2, hm1]
              simp
            | err er =>
              rw [h2] at hA
              have h' : (fsb, trb, Res.err er) = (fs2, tr2, Res.ok res) := hA
              simp at h'
            | panic m =>
              rw [h2] at hA
              have h' : (fsb, trb, Res.panic m) = (fs2, tr2, Res.ok res) := hA
              simp at h'
      | err er =>
        rw [h1] at h
        have h' : (fsa, tra, Res.err er) = (fs2, tr2, Res.ok res) := h
        simp at h'
      | panic m =>
        rw [h1] at h
        have h' : (fsa, tra, Res.panic m) = (fs2, tr2, Res.ok res) := h
        simp at h'

/-- C4: for every update edit whose requested `previous` is `None`, the
edit returned by a successful `commit` carries as `previous` the
reference's pre-transaction target as decoded from disk — `None` when the
reference did not exist, and the decoded prior target when it did. -/
theorem previous_value_discovery (s : Store) (env : Env) (fs : FS) (edits : List RefEdit)
    (mode : Fail) (res : List RefEdit)
    (h : (Transaction.commit env fs (s.transaction edits mode)).2.2 = .ok res) :
    ∀ (i : Nat) (name : Bytes) (m : ReflogMode) (new : Target) (deref : Bool),
      edits[i]? = some ⟨name, .Update m none new, deref⟩ →
      res[i]? = some ⟨name, .Update m (diskTarget fs.refs name) new, deref⟩ := by
  unfold Transaction.commit at h
  rw [show (s.transaction edits mode).state = State.Open from rfl] at h
  cases hp : Transaction.prepare env fs (s.transaction edits mode) with
  | mk fsp rp =>
    cases rp with
    | ok t1 =>
      rw [hp] at h
      obtain ⟨hstate, hupd⟩ := prepare_ok_char s env fs edits mode fsp t1 hp
      have hB : (commitPrepared env fsp t1).2.2 = Res.ok res := h
      cases hcp : commitPrepared env fsp t1 with
      | mk fs2 p2 =>
        cases p2 with
        | mk tr2 r2 =>
          rw [hcp] at hB
          have hr2 : r2 = Res.ok res := hB
          have hres := commitPrepared_ok env fsp t1 fs2 tr2 res (by rw [hcp, ← hr2])
          intro i name m new deref hget
          rw [hres, hupd, List.map_map, List.getElem?_map, hget]
          simp [prepEdit, Function.comp]
    | err er =>
      rw [hp] at h
      simp at h
    | panic m =>
      rw [hp] at h
      simp at h

/-- Witness for C4: committing an update of an existing symbolic
reference returns its prior target in `previous`. -/
theorem previous_value_discovery_witness :
    res4[0]? = some ⟨n0, .Update .normal (diskTarget fs4.refs n0) (.Symbolic n1), false⟩ :=
  previous_value_discovery s0 env0 fs4 [updSym0] .immediately res4 (by decide)
    0 n0 .normal (.Symbolic n1) false (by decide)

end RefStore

namespace RefStore

/-- On an edit that holds no lock, `lock_ref_and_apply_change` can panic
only in the `todo!` branches, never through the double-lock assertion. -/
theorem lock_ref_panic_msg (store : Store) (env : Env) (fs : FS) (e : Edit) (fs1 : FS)
    (m : String) (hl : e.lock = none)
    (h : lock_ref_and_apply_change store env fs e = (fs1, .panic m)) : m ≠ lockOnceMsg := by
  unfold lock_ref_and_apply_change at h
  split at h
  next hsome => rw [hl] at hsome; simp at hsome
  · split at h
    · have h' : (fs, Res.panic "handle deletions") = (fs1, Res.panic m) := h
      injection h' with h1 h2
      injection h2 with h3
      rw [← h3]
      decide
    · split at h
      · simp at h
      · split at h
        · next hbranch =>
          have h' : (FS.release { fs with heldLocks := store.ref_path e.update.name :: fs.heldLocks }
              (store.ref_path e.update.name), Res.panic "check previous value") =
              (fs1, Res.panic m) := h
          injection h' with h1 h2
          injection h2 with h3
          rw [← h3]
          decide
        · split at h
          · simp at h
          · split at h
            · simp at h
            · simp at h

/-- The prepare loop over lock-free edits never fires the double-lock
assertion. -/
theorem prepareLoop_no_assert (store : Store) (env : Env) :
    ∀ (es : List Edit) (fs : FS) (acc : List Edit),
      (∀ e ∈ es, e.lock = none) →
      ∀ fs1 m, prepareLoop store env fs acc es = (fs1, .panic m) → m ≠ lockOnceMsg := by
  intro es
  induction es with
  | nil =>
    intro fs acc hnone fs1 m h
    have h' : (fs, Res.ok acc.reverse) = (fs1, Res.panic m) := h
    simp at h'
  | cons e rest ih =>
    intro fs acc hnone fs1 m h
    unfold prepareLoop at h
    cases hstep : lock_ref_and_apply_change store env fs e with
    | mk fsx r =>
      cases r with
      | ok e1 =>
        rw [hstep] at h
        exact ih fsx (e1 :: acc) (fun x hx => hnone x (List.mem_cons_of_mem _ hx)) fs1 m h
      | err er =>
        rw [hstep] at h
        have h' : (releaseEdits fsx (acc.reverse ++ e :: rest), Res.err er) =
            (fs1, Res.panic m) := h
        simp at h'
      | panic m2 =>
        rw [hstep] at h
        have h' : (releaseEdits fsx (acc.reverse ++ e :: rest), Res.panic m2) =
            (fs1, Res.panic m) := h
        injection h' with h1 h2
        injection h2 with h3
        rw [← h3]
        exact lock_ref_panic_msg store env fs e fsx m2 (hnone e (List.mem_cons_self _ _)) hstep

/-- After a successful prepare loop every resulting edit holds a lock. -/
theorem prepareLoop_ok_locks (store : Store) (env : Env) :
    ∀ (es : List Edit) (fs : FS) (acc : List Edit) (fs1 : FS) (l : List Edit),
      prepareLoop store env fs acc es = (fs1, .ok l) →
      (∀ e ∈ acc, e.lock.isSome) → ∀ e ∈ l, e.lock.isSome := by
  intro es
  induction es with
  | nil =>
    intro fs acc fs1 l h hacc
    have h' : (fs, Res.ok acc.reverse) = (fs1, Res.ok l) := h
    injection h' with h1 h2
    injection h2 with h3
    subst h3
    intro e he
    exact hacc e (List.mem_reverse.mp he)
  | cons e rest ih =>
    intro fs acc fs1 l h hacc
    unfold prepareLoop at h
    cases hstep : lock_ref_and_apply_change store env fs e with
    | mk fsx r =>
      cases r with
      | ok e1 =>
        rw [hstep] at h
        obtain ⟨_, _, _, _, stg, hlock⟩ := lock_ref_ok store env fs e fsx e1 hstep
        refine ih fsx (e1 :: acc) fs1 l h ?_
        intro x hx
        rcases List.mem_cons.mp hx with hx1 | hx2
        · subst hx1
          rw [hlock]
          rfl
        · exact hacc x hx2
      | err er =>
        rw [hstep] at h
        have h' : (releaseEdits fsx (acc.reverse ++ e :: rest), Res.err er) =
            (fs1, Res.ok l) := h
        simp at h'
      | panic m =>
        rw [hstep] at h
        have h' : (releaseEdits fsx (acc.reverse ++ e :: rest), Res.panic m) =
            (fs1, Res.ok l) := h
        simp at h'

/-- `prepare` on a freshly constructed transaction never fires the
double-lock assertion. -/
theorem prepare_fresh_no_assert (s : Store) (env : Env) (fs : FS) (edits : List RefEdit)
    (mode : Fail) (fs1 : FS) (m : String)
    (h : Transaction.prepare env fs (s.transaction edits mode) = (fs1, .panic m)) :
    m ≠ lockOnceMsg := by
  unfold Transaction.prepare at h
  rw [show (s.transaction edits mode).state = State.Open from rfl] at h
  cases hfd : firstDuplicate ((s.transaction edits mode).updates.map (fun e => e.update.name)) with
  | some n =>
    rw [hfd] at h
    have h' : (fs, Res.err (Error.DuplicateRefEdits n)) = (fs1, Res.panic m) := h
    simp at h'
  | none =>
    rw [hfd] at h
    cases hloop : prepareLoop (s.transaction edits mode).store env fs []
        (s.transaction edits mode).updates with
    | mk fsx r =>
      cases r with
      | ok l =>
        rw [hloop] at h
        simp at h
      | err er =>
        rw [hloop] at h
        have h' : (fsx, Res.err er) = (fs1, Res.panic m) := h
        simp at h'
      | panic m2 =>
        rw [hloop] at h
        have h' : (fsx, Res.panic m2) = (fs1, Res.panic m) := h
        injection h' with h1 h2
        injection h2 with h3
        rw [← h3]
        refine prepareLoop_no_assert (s.transaction edits mode).store env
          (s.transaction edits mode).updates fs [] ?_ fsx m2 hloop
        intro e he
        simp only [Store.transaction, List.mem_map] at he
        obtain ⟨u, _, hu⟩ := he
        rw [← hu]

/-- After a successful `prepare` of a fresh transaction, every edit
holds a lock. -/
theorem prepare_fresh_ok_locks (s : Store) (env : Env) (fs : FS) (edits : List RefEdit)
    (mode : Fail) (fs1 : FS) (t1 : Transaction)
    (h : Transaction.prepare env fs (s.transaction edits mode) = (fs1, .ok t1)) :
    ∀ e ∈ t1.updates, e.lock.isSome := by
  unfold Transaction.prepare at h
  rw [show (s.transaction edits mode).state = State.Open from rfl] at h
  cases hfd : firstDuplicate ((s.transaction edits mode).updates.map (fun e => e.update.name)) with
  | some n =>
    rw [hfd] at h
    have h' : (fs, Res.err (Error.DuplicateRefEdits n)) = (fs1, Res.ok t1) := h
    simp at h'
  | none =>
    rw [hfd] at h
    cases hloop : prepareLoop (s.transaction edits mode).store env fs []
        (s.transaction edits mode).updates with
    | mk fsx r =>
      cases r with
      | ok l =>
        rw [hloop] at h
        have h' : (fsx, Res.ok { s.transaction edits mode with updates := l, state := .Prepared }) =
            (fs1, Res.ok t1) := h
        injection h' with h1 h2
        injection h2 with h3
        rw [← h3]
        exact prepareLoop_ok_locks (s.transaction edits mode).store env
          (s.transaction edits mode).updates fs [] fsx l hloop
          (fun e he => absurd he (List.not_mem_nil e))
      | err er =>
        rw [hloop] at h
        have h' : (fsx, Res.err er) = (fs1, Res.ok t1) := h
        simp at h'
      | panic m =>
        rw [hloop] at h
        have h' : (fsx, Res.panic m) = (fs1, Res.ok t1) := h
        simp at h'

/-- When every edit holds a lock, the first commit phase never fires the
`each ref is locked` expectation. -/
theorem commitLoop1_locked_no_panic (env : Env) :
    ∀ (es : List Edit) (fs : FS) (tr : List Event) (acc : List Edit),
      (∀ e ∈ es, e.lock.isSome) →
      ∀ fs1 tr1 m, commitLoop1 env fs tr acc es = (fs1, tr1, .panic m) →
        m ≠ "each ref is locked" := by
  intro es
  induction es with
  | nil =>
    intro fs tr acc hsome fs1 tr1 m h
    have h' : (fs, tr, Res.ok acc.reverse) = (fs1, tr1, Res.panic m) := h
    simp at h'
  | cons e rest ih =>
    intro fs tr acc hsome fs1 tr1 m h
    unfold commitLoop1 at h
    cases hedit : e.update.edit with
    | Delete prev =>
      rw [hedit] at h
      exact ih fs tr (e :: acc) (fun x hx => hsome x (List.mem_cons_of_mem _ hx)) fs1 tr1 m h
    | Update mode prev new =>
      rw [hedit] at h
      cases hlock : e.lock with
      | none =>
        have := hsome e (List.mem_cons_self _ _)
        rw [hlock] at this
        simp at this
      | some lock =>
        rw [hlock] at h
        cases new with
        | Peeled oid =>
          have h' : (fs, tr, Res.panic "commit other reflog write cases") =
              (fs1, tr1, Res.panic m) := h
          injection h' with h1 h2
          injection h2 with h3 h4
          injection h4 with h5
          rw [← h5]
          decide
        | Symbolic nm =>
          have hif : (if env.commitFail lock.path = true then (fs, tr, Res.err Error.ioError)
              else commitLoop1 env (commitMarker fs e.update.name lock)
                (tr ++ [Event.publish e.update.name])
                ({ e with lock := none } :: acc) rest) = (fs1, tr1, Res.panic m) := h
          by_cases hcf : env.commitFail lock.path = true
          · rw [if_pos hcf] at hif
            simp at hif
          · rw [if_neg hcf] at hif
            exact ih (commitMarker fs e.update.name lock) (tr ++ [Event.publish e.update.name])
              ({ e with lock := none } :: acc)
              (fun x hx => hsome x (List.mem_cons_of_mem _ hx)) fs1 tr1 m hif

/-- The only panic the second commit phase can produce is the deletion
`todo!`. -/
theorem commitLoop2_panic_msg :
    ∀ (es : List Edit) (fs : FS) (tr : List Event) (acc : List Edit),
      ∀ fs1 tr1 m, commitLoop2 fs tr acc es = (fs1, tr1, .panic m) → m = "commit deletion" := by
  intro es
  induction es with
  | nil =>
    intro fs tr acc fs1 tr1 m h
    have h' : (fs, tr, Res.ok acc.reverse) = (fs1, tr1, Res.panic m) := h
    simp at h'
  | cons e rest ih =>
    intro fs tr acc fs1 tr1 m h
    unfold commitLoop2 at h
    cases hedit : e.update.edit with
    | Update mode prev new =>
      rw [hedit] at h
      exact ih fs tr (e :: acc) fs1 tr1 m h
    | Delete prev =>
      rw [hedit] at h
      have h' : (fs, tr, Res.panic "commit deletion") = (fs1, tr1, Res.panic m) := h
      injection h' with h1 h2
      injection h2 with h3 h4
      injection h4 with h5
      rw [← h5]

/-- Committing a transaction whose edits all hold locks never fires the
`each ref is locked` expectation. -/
theorem commitPrepared_locked_no_panic (env : Env) (fs : FS) (t : Transaction)
    (hlocks : ∀ e ∈ t.updates, e.lock.isSome) (fs2 : FS) (tr2 : List Event) (m : String)
    (h : commitPrepared env fs t = (fs2, tr2, .panic m)) : m ≠ "each ref is locked" := by
  unfold commitPrepared at h
  cases h1 : commitLoop1 env fs [] [] t.updates with
  | mk fsa pa =>
    cases pa with
    | mk tra ra =>
      cases ra with
      | ok l1 =>
        rw [h1] at h
        have hA : (match commitLoop2 fsa tra [] l1 with
            | (fsx, trx, Res.ok l2) => (fsx, trx, Res.ok (l2.map (fun e => e.update)))
            | (fsx, trx, Res.err er) => (fsx, trx, Res.err er)
            | (fsx, trx, Res.panic mx) => (fsx, trx, Res.panic mx)) =
            (fs2, tr2, Res.panic m) := h
        cases h2 : commitLoop2 fsa tra [] l1 with
        | mk fsb pb =>
          cases pb with
          | mk trb rb =>
            cases rb with
            | ok l2 =>
              rw [h2] at hA
              have h' : (fsb, trb, Res.ok (l2.map (fun e => e.update))) =
                  (fs2, tr2, Res.panic m) := hA
              simp at h'
            | err er =>
              rw [h2] at hA
              have h' : (fsb, trb, Res.err er) = (fs2, tr2, Res.panic m) := hA
              simp at h'
            | panic m2 =>
              rw [h2] at hA
              have h' : (fsb, trb, Res.panic m2) = (fs2, tr2, Res.panic m) := hA
              injection h' with ha hb
              injection hb with hc hd
              injection hd with he
              rw [← he, commitLoop2_panic_msg l1 fsa tra [] fsb trb m2 h2]
              decide
      | err er =>
        rw [h1] at h
        have h' : (fsa, tra, Res.err er) = (fs2, tr2, Res.panic m) := h
        simp at h'
      | panic m2 =>
        rw [h1] at h
        have h' : (fsa, tra, Res.panic m2) = (fs2, tr2, Res.panic m) := h
        injection h' with ha hb
        injection hb with hc hd
        injection hd with he
        rw [← he]
        exact commitLoop1_locked_no_panic env t.updates fs [] [] hlocks fsa tra m2 h1

/-- C8: for a transaction built by `Store::transaction`, a lock is
acquired at most once per edit: `prepare` can never fire the double-lock
assertion, and after a successful `prepare` every edit holds a lock that
`commit` takes exactly once — the `each ref is locked` expectation can
never fire either. -/
theorem locks_acquired_at_most_once (s : Store) (env : Env) (fs : FS) (edits : List RefEdit)
    (mode : Fail) :
    (Transaction.prepare env fs (s.transaction edits mode)).2 ≠ Res.panic lockOnceMsg ∧
    ∀ fs1 t1, Transaction.prepare env fs (s.transaction edits mode) = (fs1, .ok t1) →
      (∀ e ∈ t1.updates, e.lock.isSome) ∧
      (Transaction.commit env fs1 t1).2.2 ≠ Res.panic "each ref is locked" := by
  constructor
  · intro hpan
    have hfull : Transaction.prepare env fs (s.transaction edits mode) =
        ((Transaction.prepare env fs (s.transaction edits mode)).1, Res.panic lockOnceMsg) := by
      rw [← hpan]
    exact prepare_fresh_no_assert s env fs edits mode _ lockOnceMsg hfull rfl
  · intro fs1 t1 hok
    have hlocks := prepare_fresh_ok_locks s env fs edits mode fs1 t1 hok
    refine ⟨hlocks, ?_⟩
    obtain ⟨hstate, _⟩ := prepare_ok_char s env fs edits mode fs1 t1 hok
    have hcm : Transaction.commit env fs1 t1 = commitPrepared env fs1 t1 := by
      unfold Transaction.commit
      rw [hstate]
    rw [hcm]
    intro hpan
    have hfull : commitPrepared env fs1 t1 =
        ((commitPrepared env fs1 t1).1, (commitPrepared env fs1 t1).2.1,
          Res.panic "each ref is locked") := by
      rw [← hpan]
    exact commitPrepared_locked_no_panic env fs1 t1 hlocks _ _ "each ref is locked" hfull rfl

/-- Witness for C8: the concrete prepared single-update transaction
commits without ever hitting the lock expectation. -/
theorem locks_acquired_at_most_once_witness :
    (Transaction.commit env0 prep8.1 t1c).2.2 ≠ Res.panic "each ref is locked" :=
  ((locks_acquired_at_most_once s0 env0 fs0 [updSym0] .immediately).2 prep8.1 t1c (by decide)).2

end RefStore

namespace RefStore

/-- The first (modelled) commit phase appends only publish events to the
trace, whatever its outcome. -/
theorem commitLoop1M_trace (env : Env) :
    ∀ (es : List Edit) (fs : FS) (tr : List Event) (acc : List Edit) (fs1 : FS)
      (tr1 : List Event) (r : Res (List Edit)),
      commitLoop1M env fs tr acc es = (fs1, tr1, r) →
      ∃ d, tr1 = tr ++ d ∧ ∀ ev ∈ d, ∃ nm, ev = Event.publish nm := by
  intro es
  induction es with
  | nil =>
    intro fs tr acc fs1 tr1 r h
    have h' : (fs, tr, Res.ok acc.reverse) = (fs1, tr1, r) := h
    injection h' with h1 h2
    injection h2 with h3 h4
    refine ⟨[], by rw [← h3]; simp, by simp⟩
  | cons e rest ih =>
    intro fs tr acc fs1 tr1 r h
    unfold commitLoop1M at h
    cases hedit : e.update.edit with
    | Delete prev =>
      rw [hedit] at h
      exact ih fs tr (e :: acc) fs1 tr1 r h
    | Update mode prev new =>
      rw [hedit] at h
      cases hlock : e.lock with
      | none =>
        rw [hlock] at h
        have h' : (fs, tr, Res.panic "each ref is locked") = (fs1, tr1, r) := h
        injection h' with h1 h2
        injection h2 with h3 h4
        refine ⟨[], by rw [← h3]; simp, by simp⟩
      | some lock =>
        rw [hlock] at h
        have hif : (if env.commitFail lock.path = true then (fs, tr, Res.err Error.ioError)
            else commitLoop1M env (commitMarker fs e.update.name lock)
              (tr ++ [Event.publish e.update.name])
              ({ e with lock := none } :: acc) rest) = (fs1, tr1, r) := h
        by_cases hcf : env.commitFail lock.path = true
        · rw [if_pos hcf] at hif
          injection hif with h1 h2
          injection h2 with h3 h4
          refine ⟨[], by rw [← h3]; simp, by simp⟩
        · rw [if_neg hcf] at hif
          obtain ⟨d, hd, hpub⟩ := ih (commitMarker fs e.update.name lock)
            (tr ++ [Event.publish e.update.name]) ({ e with lock := none } :: acc)
            fs1 tr1 r hif
          refine ⟨Event.publish e.update.name :: d, ?_, ?_⟩
          · rw [hd, List.append_assoc]
            rfl
          · intro ev hev
            rcases List.mem_cons.mp hev with hev1 | hev2
            · exact ⟨e.update.name, hev1⟩
            · exact hpub ev hev2

/-- The second (modelled) commit phase appends only removal events to
the trace, whatever its outcome. -/
theorem commitLoop2M_trace :
    ∀ (es : List Edit) (fs : FS) (tr : List Event) (acc : List Edit) (fs1 : FS)
      (tr1 : List Event) (r : Res (List Edit)),
      commitLoop2M fs tr acc es = (fs1, tr1, r) →
      ∃ d, tr1 = tr ++ d ∧ ∀ ev ∈ d, ∃ nm, ev = Event.removal nm := by
  intro es
  induction es with
  | nil =>
    intro fs tr acc fs1 tr1 r h
    have h' : (fs, tr, Res.ok acc.reverse) = (fs1, tr1, r) := h
    injection h' with h1 h2
    injection h2 with h3 h4
    refine ⟨[], by rw [← h3]; simp, by simp⟩
  | cons e rest ih =>
    intro fs tr acc fs1 tr1 r h
    unfold commitLoop2M at h
    cases hedit : e.update.edit with
    | Update mode prev new =>
      rw [hedit] at h
      exact ih fs tr (e :: acc) fs1 tr1 r h
    | Delete prev =>
      rw [hedit] at h
      obtain ⟨d, hd, hrem⟩ := ih { fs with refs := removeRef fs.refs e.update.name }
        (tr ++ [Event.removal e.update.name]) (e :: acc) fs1 tr1 r h
      refine ⟨Event.removal e.update.name :: d, ?_, ?_⟩
      · rw [hd, List.append_assoc]
        rfl
      · intro ev hev
        rcases List.mem_cons.mp hev with hev1 | hev2
        · exact ⟨e.update.name, hev1⟩
        · exact hrem ev hev2

/-- In a trace made of publish events followed by removal events, every
publish index precedes every removal index. -/
theorem publish_before_removal_in_append (d1 d2 : List Event)
    (hd1 : ∀ ev ∈ d1, ∃ nm, ev = Event.publish nm)
    (hd2 : ∀ ev ∈ d2, ∃ nm, ev = Event.removal nm)
    (i j : Nat) (n m : Bytes)
    (hi : (d1 ++ d2)[i]? = some (Event.publish n))
    (hj : (d1 ++ d2)[j]? = some (Event.removal m)) : i < j := by
  have hi_lt : i < d1.length := by
    by_contra hge
    push_neg at hge
    rw [List.getElem?_append_right hge] at hi
    obtain ⟨nm, hnm⟩ := hd2 _ (List.getElem?_mem hi)
    simp at hnm
  have hj_ge : d1.length ≤ j := by
    by_contra hlt
    push_neg at hlt
    rw [List.getElem?_append, if_pos hlt] at hj
    obtain ⟨nm, hnm⟩ := hd1 _ (List.getElem?_mem hj)
    simp at hnm
  omega

/-- C6: during commit of a prepared transaction, every update's publish
step precedes any deletion's removal step in the event trace, whatever
the caller-supplied order of the edits in the batch. -/
theorem updates_published_before_removals (env : Env) (fs : FS) (t : Transaction)
    (h : t.state = .Prepared) (i j : Nat) (n m : Bytes)
    (hi : (Transaction.commitM env fs t).2.1[i]? = some (Event.publish n))
    (hj : (Transaction.commitM env fs t).2.1[j]? = some (Event.removal m)) : i < j := by
  have hcm : Transaction.commitM env fs t = commitPreparedM env fs t := by
    unfold Transaction.commitM
    rw [h]
  rw [hcm] at hi hj
  unfold commitPreparedM at hi hj
  cases h1 : commitLoop1M env fs [] [] t.updates with
  | mk fs1 p1 =>
    cases p1 with
    | mk tr1 r1 =>
      obtain ⟨d1, htr1, hd1⟩ := commitLoop1M_trace env t.updates fs [] [] fs1 tr1 r1 h1
      rw [List.nil_append] at htr1
      cases r1 with
      | ok l1 =>
        rw [h1] at hi hj
        have hiA : (match commitLoop2M fs1 tr1 [] l1 with
            | (fsx, trx, Res.ok l2) => (fsx, trx, Res.ok (l2.map (fun (e : Edit) => e.update)))
            | (fsx, trx, Res.err er) => (fsx, trx, Res.err er)
            | (fsx, trx, Res.panic mx) => (fsx, trx, Res.panic mx)).2.1[i]? =
            some (Event.publish n) := hi
        have hjA : (match commitLoop2M fs1 tr1 [] l1 with
            | (fsx, trx, Res.ok l2) => (fsx, trx, Res.ok (l2.map (fun (e : Edit) => e.update)))
            | (fsx, trx, Res.err er) => (fsx, trx, Res.err er)
            | (fsx, trx, Res.panic mx) => (fsx, trx, Res.panic mx)).2.1[j]? =
            some (Event.removal m) := hj
        cases h2 : commitLoop2M fs1 tr1 [] l1 with
        | mk fs2 p2 =>
          cases p2 with
          | mk tr2 r2 =>
            obtain ⟨d2, htr2, hd2⟩ := commitLoop2M_trace l1 fs1 tr1 [] fs2 tr2 r2 h2
            rw [htr1] at htr2
            rw [h2] at hiA hjA
            cases r2 with
            | ok l2 =>
              have hi' : tr2[i]? = some (Event.publish n) := hiA
              have hj' : tr2[j]? = some (Event.removal m) := hjA
              rw [htr2] at hi' hj'
              exact publish_before_removal_in_append d1 d2 hd1 hd2 i j n m hi' hj'
            | err er =>
              have hi' : tr2[i]? = some (Event.publish n) := hiA
              have hj' : tr2[j]? = some (Event.removal m) := hjA
              rw [htr2] at hi' hj'
              exact publish_before_removal_in_append d1 d2 hd1 hd2 i j n m hi' hj'
            | panic mx =>
              have hi' : tr2[i]? = some (Event.publish n) := hiA
              have hj' : tr2[j]? = some (Event.removal m) := hjA
              rw [htr2] at hi' hj'
              exact publish_before_removal_in_append d1 d2 hd1 hd2 i j n m hi' hj'
      | err er =>
        rw [h1] at hi hj
        have hj' : tr1[j]? = some (Event.removal m) := hj
        rw [htr1] at hj'
        obtain ⟨nm, hnm⟩ := hd1 _ (List.getElem?_mem hj')
        simp at hnm
      | panic mx =>
        rw [h1] at hi hj
        have hj' : tr1[j]? = some (Event.removal m) := hj
        rw [htr1] at hj'
        obtain ⟨nm, hnm⟩ := hd1 _ (List.getElem?_mem hj')
        simp at hnm

/-- Witness for C6: a prepared transaction listing a deletion before an
update still publishes the update (index 0) before the removal (index 1). -/
theorem updates_published_before_removals_witness : (0 : Nat) < 1 :=
  updates_published_before_removals env0 fsW tW rfl 0 1 n0 n2 (by decide) (by decide)

end RefStore
